import Mathlib

/-!
# Verification of the gamebattle backend preference / session / launcher core

A shallow embedding of the relevant parts of `gamebattle_backend`
(`preferences.py`, `preference_store_redis.py`, `launcher.py`, `manager.py`,
`session.py`, `container.py`, `api.py`) together with proofs about the
embedded operations.

Python `dict`s (which preserve insertion order) are modelled as association
lists with in-place update; Python `float` scores are modelled as exact
rationals, with the single transcendental operation `10 ** (d / 400)`
abstracted as a function parameter `pw` (its only property ever needed on the
runs studied here is `pw 0 = 1`, which holds exactly for IEEE floats).
-/

namespace Gamebattle

/-- Equality of `Except` values is decidable (used to evaluate fallible
operations at concrete inputs). -/
instance {ε α : Type} [DecidableEq ε] [DecidableEq α] : DecidableEq (Except ε α) :=
  fun x y =>
    match x, y with
    | .error a, .error b =>
        if h : a = b then isTrue (by rw [h])
        else isFalse (by intro c; cases c; exact h rfl)
    | .error _, .ok _ => isFalse (by intro c; cases c)
    | .ok _, .error _ => isFalse (by intro c; cases c)
    | .ok a, .ok b =>
        if h : a = b then isTrue (by rw [h])
        else isFalse (by intro c; cases c; exact h rfl)

/-- Lookup in an insertion-ordered association list (Python `dict.get`). -/
def dictGet {κ β : Type} [DecidableEq κ] : List (κ × β) → κ → Option β
  | [], _ => none
  | (k, v) :: rest, key => if k = key then some v else dictGet rest key

/-- Lookup with a default (Python `dict.get(key, default)`). -/
def dictGetD {κ β : Type} [DecidableEq κ] (l : List (κ × β)) (key : κ) (d : β) : β :=
  (dictGet l key).getD d

/-- `dict[key] = value`: update in place if the key exists (keeping its
insertion position, as Python dicts do), else append. -/
def dictSet {κ β : Type} [DecidableEq κ] : List (κ × β) → κ → β → List (κ × β)
  | [], key, v => [(key, v)]
  | (k, w) :: rest, key, v =>
      if k = key then (k, v) :: rest else (k, w) :: dictSet rest key v

/-- Binary minimum, written out so that it evaluates by cases on `≤`
(Python's `min` keeps the earlier argument on ties, as this does). -/
def ratMin (a b : ℚ) : ℚ := if a ≤ b then a else b

/-- Absolute value, written out so that it evaluates by cases on `<`
(Python's `abs`). -/
def ratAbs (x : ℚ) : ℚ := if x < 0 then -x else x

/-- Minimum of a list of rationals (Python `min`); the `[]` case is never
reached where this is used. -/
def listMin : List ℚ → ℚ
  | [] => 0
  | x :: xs => xs.foldl ratMin x

/-- Stable insertion into a list sorted descending by `key`: an element moves
past all earlier elements with a key `≥` its own, exactly as Python's stable
`sorted(..., reverse=True)` orders ties. -/
def insertDescBy {α : Type} (key : α → ℚ) (x : α) : List α → List α
  | [] => [x]
  | y :: ys => if key x ≤ key y then y :: insertDescBy key x ys else x :: y :: ys

/-- Stable descending sort by a rational key (Python
`sorted(..., key=key, reverse=True)` / `list.sort(key=key, reverse=True)`). -/
def stableSortDescBy {α : Type} (key : α → ℚ) (l : List α) : List α :=
  l.foldl (fun acc x => insertDescBy key x acc) []

/-- Stable insertion into a list sorted ascending by `key`. -/
def insertAscBy {α : Type} (key : α → ℚ) (x : α) : List α → List α
  | [] => [x]
  | y :: ys => if key y ≤ key x then y :: insertAscBy key x ys else x :: y :: ys

/-- Stable ascending sort by a rational key (Python `sorted(..., key=key)`). -/
def stableSortAscBy {α : Type} (key : α → ℚ) (l : List α) : List α :=
  l.foldl (fun acc x => insertAscBy key x acc) []

/-- `preferences.Preference`: a vote between two games, identified by their
`team_id`s, by `author`, with `first_score` the score of the first game. -/
structure Preference where
  games : String × String
  first_score : ℚ
  author : String
  timestamp : ℚ
  deriving DecidableEq, Repr

/-- The mutable state of `preferences.EloRatingSystem`: `ratings` and `runs`
keyed by `team_id`, and `seen_games` mapping an author to the team ids they
have already rated (a Python `set`, modelled as a duplicate-free list). -/
structure EloState where
  ratings : List (String × ℚ)
  runs : List (String × ℕ)
  seen_games : List (String × List String)
  deriving DecidableEq, Repr

/-- The state after `EloRatingSystem.__init__` / `clear`. -/
def emptyElo : EloState := ⟨[], [], []⟩

/-- `set.update(games)` on the seen set: add each id not already present. -/
def addAll (l : List String) (gs : List String) : List String :=
  gs.foldl (fun acc g => if g ∈ acc then acc else acc ++ [g]) l

/-- `if game not in self.ratings: self.ratings[game] = initial`. -/
def ensureKey (l : List (String × ℚ)) (g : String) (v : ℚ) : List (String × ℚ) :=
  if (dictGet l g).isSome then l else l ++ [(g, v)]

/-- `EloRatingSystem.expected_score(game, other)`:
`1 / (1 + 10 ** ((ratings[other] - ratings[game]) / 400))`, with
`pw` standing for the float power `10 ** ·`. -/
def expectedScore (pw : ℚ → ℚ) (ratings : List (String × ℚ)) (game other : String) : ℚ :=
  1 / (1 + pw ((dictGetD ratings other 0 - dictGetD ratings game 0) / 400))

/-- `EloRatingSystem.register(preference, owns_game)`.

Returns the new state and the `bool` the method returns.  Mirrors the source:
the already-rated check reads the seen set before the two games are added to
it; on a counted vote both games are initialised to `initial` if absent, both
expected scores are computed before either rating is updated, the two ratings
and run counters are then updated in order, and finally all ratings are
shifted by `-min` when the minimum went negative. -/
def register (k initial : ℚ) (pw : ℚ → ℚ) (st : EloState) (pref : Preference)
    (owns_game : Bool) : EloState × Bool :=
  let authorRated := (dictGet st.seen_games pref.author).getD []
  let alreadyRated : Bool :=
    decide (pref.games.1 ∈ authorRated) || decide (pref.games.2 ∈ authorRated)
  let seen' := dictSet st.seen_games pref.author
    (addAll authorRated [pref.games.1, pref.games.2])
  if owns_game || alreadyRated then
    ({ st with seen_games := seen' }, false)
  else
    let r1 := ensureKey (ensureKey st.ratings pref.games.1 initial) pref.games.2 initial
    let ea := expectedScore pw r1 pref.games.1 pref.games.2
    let eb := expectedScore pw r1 pref.games.2 pref.games.1
    let r2 := dictSet r1 pref.games.1
      (dictGetD r1 pref.games.1 initial + k * (pref.first_score - ea))
    let r3 := dictSet r2 pref.games.2
      (dictGetD r2 pref.games.2 initial + k * ((1 - pref.first_score) - eb))
    let runs2 := dictSet (dictSet st.runs pref.games.1
      (dictGetD st.runs pref.games.1 0 + 1)) pref.games.2
      (dictGetD (dictSet st.runs pref.games.1
        (dictGetD st.runs pref.games.1 0 + 1)) pref.games.2 0 + 1)
    let m := listMin (r3.map Prod.snd)
    let r4 := if m < 0 then r3.map (fun gr => (gr.1, gr.2 - m)) else r3
    ({ ratings := r4, runs := runs2, seen_games := seen' }, true)

/-- Replaying a list of preferences into a fresh rating system, in list
order (`clear` followed by `register` for each stored preference; the
rebuild paths never pass `owns_game`, so it defaults to `False`). -/
def replayFromEmpty (k initial : ℚ) (pw : ℚ → ℚ) (prefs : List Preference) : EloState :=
  prefs.foldl (fun s p => (register k initial pw s p false).1) emptyElo

/-- A concrete stand-in for the float power `d ↦ 10 ** (d / 400)` used where a
closed (binder-free) statement must evaluate: it agrees with the float
operation at the one argument the runs below ever apply it to (`pw 0 = 1`,
exact for floats) and is otherwise an arbitrary monotone positive value. -/
def pow10ref : ℚ → ℚ := fun d => if d = 0 then 1 else if 0 < d then 2 else 1 / 2

/-- `preferences.RAMPreferenceStore.set(key, value, owns_game)`, acting on the
stored preference dict together with the state of the single bound
`EloRatingSystem`.  On an existing key it rebuilds every bound system:
`clear` then `register` for each stored preference **in dict insertion
order** (`async for preference in self` iterates `self.preferences.values()`);
on a new key it registers just the new value, forwarding `owns_game`. -/
def ramSet (k initial : ℚ) (pw : ℚ → ℚ) (store : List (ℕ × Preference))
    (es : EloState) (key : ℕ) (value : Preference) (owns_game : Bool) :
    List (ℕ × Preference) × EloState :=
  let prefExists := (dictGet store key).isSome
  let store' := dictSet store key value
  if prefExists then
    (store', replayFromEmpty k initial pw (store'.map Prod.snd))
  else
    (store', (register k initial pw es value owns_game).1)

/-- `preference_store_redis.RedisPreferenceStore.set(key, value)`, acting on
the redis hash contents (modelled as a key-to-preference map in scan order)
and the single bound rating system.  `set` takes no `owns_game` argument; on
an existing key it rebuilds from `sorted_preferences()` (ascending by
timestamp, ties in scan order via Python's stable `sorted`), and on a new key
it calls `register(value)` with `owns_game` left at its `False` default. -/
def redisSet (k initial : ℚ) (pw : ℚ → ℚ) (store : List (ℕ × Preference))
    (es : EloState) (key : ℕ) (value : Preference) :
    List (ℕ × Preference) × EloState :=
  let prefExists := (dictGet store key).isSome
  let store' := dictSet store key value
  if prefExists then
    (store',
      replayFromEmpty k initial pw
        (stableSortAscBy (fun p => p.timestamp) (store'.map Prod.snd)))
  else
    (store', (register k initial pw es value false).1)

/-- `common.GameMeta` (fields `name`, `team_id`, `file`), extended by the two
attributes the launcher code reads off a game but that the `common.py`
declaration does not list: `email` (the owning user, used by
`Launcher.build_game` and the random strategies) and `id` (the catalogue key
matched by `Launcher.__getitem__`; per the spec the catalogue is keyed by
`team_id`). -/
structure GameMeta where
  name : String
  team_id : String
  file : String
  email : String
  id : String
  deriving DecidableEq, Repr

/-- `preferences.Rating`: a leaderboard entry. -/
structure Rating where
  name : String
  score : ℚ
  deriving DecidableEq, Repr

/-- The part of `launcher.Launcher` that `EloRatingSystem.launch` and `top`
consume: the catalogue list and the `allowed_access` test (whether `owner`
may access a game, i.e. is on its team). -/
structure LauncherCat where
  games : List GameMeta
  access : GameMeta → String → Bool

/-- `Launcher.__getitem__` / `game in launcher`: find the catalogue entry
whose `id` matches. -/
def launcherFind (launcher : LauncherCat) (gameId : String) : Option GameMeta :=
  launcher.games.find? (fun g => g.id = gameId)

/-- `EloRatingSystem.top(launcher)`: ratings of games that are in the
catalogue and not excluded, in a stable descending sort by score (the
generator preserves the ratings-dict insertion order before sorting). -/
def topRatings (es : EloState) (launcher : LauncherCat) (excluded : List String) :
    List Rating :=
  stableSortDescBy (fun r => r.score)
    (es.ratings.filterMap (fun gs =>
      match launcherFind launcher gs.1 with
      | some gm => if gs.1 ∈ excluded then none else some ⟨gm.name, gs.2⟩
      | none => none))

/-- `list.remove(x)`: drop the first occurrence of `x`. -/
def removeFirst {α : Type} [DecidableEq α] : List α → α → List α
  | [], _ => []
  | y :: ys, x => if y = x then ys else y :: removeFirst ys x

/-- Removing an element never lengthens a list. -/
theorem removeFirst_length_le {α : Type} [DecidableEq α] (l : List α) (x : α) :
    (removeFirst l x).length ≤ l.length := by
  induction l with
  | nil => simp [removeFirst]
  | cons y ys ih =>
    simp only [removeFirst]
    split
    · simp
    · simp only [List.length_cons]
      omega

/-- One round of the `for game in available: if ⟨reported⟩:
available.remove(game)` loop in `EloRatingSystem.launch`, with CPython
list-iterator semantics: the iterator keeps an index that advances every
round, so removing the current element shifts the list and skips the element
after it.  Structural recursion on a fuel count (`l.length - n` strictly
decreases each round, so any fuel of at least the initial list length runs
the loop to completion). -/
def pyRemoveLoopAux {α : Type} [DecidableEq α] (p : α → Bool) :
    ℕ → List α → ℕ → List α
  | 0, l, _ => l
  | fuel + 1, l, n =>
    if h : n < l.length then
      let g := l.get ⟨n, h⟩
      if p g then pyRemoveLoopAux p fuel (removeFirst l g) (n + 1)
      else pyRemoveLoopAux p fuel l (n + 1)
    else l

/-- The whole removal loop, started at index 0 with sufficient fuel. -/
def pyRemoveLoop {α : Type} [DecidableEq α] (p : α → Bool) (l : List α) (n : ℕ) :
    List α :=
  pyRemoveLoopAux p l.length l n

/-- `EloRatingSystem.pair_likelihood(game, other)`. -/
def pairLikelihood (initial : ℚ) (es : EloState) (game other : String) : ℚ :=
  ratAbs (dictGetD es.ratings game initial - dictGetD es.ratings other initial) / 200
    - (((dictGetD es.runs game 0 : ℕ) : ℚ) + ((dictGetD es.runs other 0 : ℕ) : ℚ))

/-- The `available` list computed by `EloRatingSystem.launch`: catalogue games
the owner may not access, with team not in `avoid`, not excluded, and not in
the owner's seen set, then thinned by the (index-skipping) removal loop for
games the owner has reported.  `reportAuthors` gives the report authors
stored under a team id. -/
def launchAvailable (es : EloState) (launcher : LauncherCat) (owner : String)
    (avoid excluded : List String) (reportAuthors : String → List String) :
    List GameMeta :=
  let seen := (dictGet es.seen_games owner).getD []
  let available := launcher.games.filter (fun g =>
    !launcher.access g owner && !(avoid.contains g.team_id)
      && !(excluded.contains g.team_id) && !(seen.contains g.team_id))
  pyRemoveLoop (fun g => (reportAuthors g.team_id).contains owner) available 0

/-- The ordered pair list `[(game, other) for game in available for other in
available if game != other]` of `EloRatingSystem.launch`. -/
def launchPairs (es : EloState) (launcher : LauncherCat) (owner : String)
    (avoid excluded : List String) (reportAuthors : String → List String) :
    List (GameMeta × GameMeta) :=
  let available := launchAvailable es launcher owner avoid excluded reportAuthors
  available.flatMap (fun g =>
    (available.filter (fun o => decide (g ≠ o))).map (fun o => (g, o)))

/-- `EloRatingSystem.launch(launcher, capacity, owner, avoid)`: if no pair is
available return `[]`; otherwise sort the pairs descending by
`pair_likelihood` (stable), flatten them, append the **whole catalogue**
`launcher.games` as padding, and truncate to `capacity`. -/
def launch (initial : ℚ) (es : EloState) (launcher : LauncherCat) (capacity : ℕ)
    (owner : String) (avoid excluded : List String)
    (reportAuthors : String → List String) : List GameMeta :=
  let gamePairs := launchPairs es launcher owner avoid excluded reportAuthors
  if gamePairs = [] then []
  else
    let sortedPairs := stableSortDescBy
      (fun pr => pairLikelihood initial es pr.1.team_id pr.2.team_id) gamePairs
    ((sortedPairs.flatMap (fun pr => [pr.1, pr.2])) ++ launcher.games).take capacity

/-! ## Session manager (`manager.py`) and its API error mapping (`api.py`) -/

/-- The part of `session.Session` that `Manager.get_session` exposes. -/
structure SessionR where
  owner : String
  gameTeams : List String
  launch_time : ℚ
  deriving DecidableEq, Repr

/-- A raised Python `KeyError`, with its `args`: the dict lookup
`self.sessions[session_id]` raises `KeyError(session_id)`, while the bare
`raise KeyError` on an owner mismatch raises `KeyError()`. -/
inductive PyKeyError where
  | withKey (sessionId : ℕ)
  | noArgs
  deriving DecidableEq, Repr

/-- `Manager.get_session(user_id, session_id)`: dict lookup, then owner
check. -/
def getSession (sessions : List (ℕ × SessionR)) (userId : String)
    (sessionId : ℕ) : Except PyKeyError SessionR :=
  match dictGet sessions sessionId with
  | none => .error (.withKey sessionId)
  | some session =>
      if session.owner ≠ userId then .error .noArgs else .ok session

/-- An HTTP error as raised by `fastapi.HTTPException(status_code, detail)`. -/
structure HttpError where
  status_code : ℕ
  detail : String
  deriving DecidableEq, Repr

/-- The API layer's handling of `Manager.get_session`
(`api.GamebattleApi.set_preference` and the other session endpoints):
`except KeyError:` catches every `KeyError` regardless of its `args` and
raises the one fixed 404. -/
def apiGetSession (sessions : List (ℕ × SessionR)) (userId : String)
    (sessionId : ℕ) : Except HttpError SessionR :=
  match getSession sessions userId sessionId with
  | .error _ => .error ⟨404, "Session not found."⟩
  | .ok session => .ok session

/-! ## File intake and game building (`launcher.py`) -/

/-- `string.ascii_uppercase + string.ascii_lowercase + string.digits + "_-."`
(plus two spaces when not strict): the characters allowed in a filename
component.  `Char.isAlpha`/`Char.isDigit` are the ASCII ranges, matching the
Python constants. -/
def allowedChar (strict : Bool) (c : Char) : Bool :=
  c.isAlpha || c.isDigit || c == '_' || c == '-' || c == '.' || (!strict && c == ' ')

/-- The characters of which a component must contain at least one
(letters, digits, `_`, `-`). -/
def requiredChar (c : Char) : Bool :=
  c.isAlpha || c.isDigit || c == '_' || c == '-'

/-- `str.split("/")` on the underlying character list (kernel-reducible,
agreeing with Python's split on a single-character separator: `""` splits to
`[""]`, separators at the ends produce empty components). -/
def splitSlashAux : List Char → List Char → List String
  | [], acc => [String.mk acc.reverse]
  | c :: cs, acc =>
      if c = '/' then String.mk acc.reverse :: splitSlashAux cs []
      else splitSlashAux cs (c :: acc)

/-- `filename.split("/")`. -/
def splitSlash (s : String) : List String :=
  splitSlashAux s.toList []

/-- `Launcher.filename_component_valid(component, strict)`: length 1..255,
all characters allowed, at least one required character (character tests run
over the string's character list). -/
def filenameComponentValid (strict : Bool) (component : String) : Bool :=
  if component.toList.length > 255 then false
  else if component.toList.length == 0 then false
  else if !(component.toList.all (allowedChar strict)) then false
  else component.toList.any requiredChar

/-- `Launcher.check_file_name(filename, strict)`: split on `/`, at most 10
components, every component valid. -/
def checkFileName (strict : Bool) (filename : String) : Bool :=
  let components := splitSlash filename
  if components.length > 10 then false
  else components.all (filenameComponentValid strict)

/-- A team's stored game files, as `Launcher.get_game_files` sees them:
relative path to content bytes. -/
abbrev TeamFiles : Type := List (String × List ℕ)

/-- `Launcher.add_game_file(owner, game_file_content, filename)`: reject an
invalid name, a content longer than 128 KiB, or a pre-add file count above
64; otherwise write (create or overwrite) the file. -/
def addGameFile (files : TeamFiles) (content : List ℕ) (filename : String) :
    Except String TeamFiles :=
  if !(checkFileName false filename) then .error "Invalid file name"
  else if content.length > 128 * 1024 then .error "File too large"
  else if files.length > 64 then .error "Too many files"
  else .ok (dictSet files filename content)

/-- The launcher state that `Launcher.build_game` can touch: the in-memory
catalogue plus the traces of its two side effects, the metadata files written
by `save_metadata` and the docker contexts/images produced by
`create_docker_context_for`. -/
structure LauncherState where
  games : List GameMeta
  savedMetadata : List GameMeta
  builtContexts : List GameMeta
  deriving DecidableEq, Repr

/-- `Launcher.build_game(metadata)`: if the entrypoint fails the **strict**
filename rule the method just returns; otherwise it saves the metadata,
builds the docker context and upserts the catalogue entry with the same
`email`. -/
def buildGame (st : LauncherState) (metadata : GameMeta) : LauncherState :=
  if !(checkFileName true metadata.file) then st
  else
    { games := (st.games.filter (fun x => x.email ≠ metadata.email)) ++ [metadata],
      savedMetadata := st.savedMetadata ++ [metadata],
      builtContexts := st.builtContexts ++ [metadata] }

/-! ## `container.ReplayableStream`

An interleaving model of one producer (`append`/`close`) and one subscriber
iterating `__aiter__`, under asyncio's cooperative scheduling.  The producer
methods contain no genuine suspension point (`Queue.put` on an unbounded
queue never blocks), so each runs atomically; the subscriber suspends at each
`yield` of the history loop and at each `await queue.get()`.  Crucially, the
stretch from the history loop's final length check to
`self._subscribers.add(queue)` contains no `await`, so it is one atomic step.
-/

namespace Replay

/-- The stream object: `_items` and `_closed` (`_subscribers` is represented
by the one modelled subscriber's own state). -/
structure StreamState (α : Type) where
  items : List α
  closed : Bool

/-- The subscriber's iterator state: replaying `_items` at index `i`,
subscribed with a FIFO queue (`put` appends, `get` pops the head; `none` is
the close sentinel), or terminated. -/
inductive SubState (α : Type) where
  | draining (i : ℕ)
  | queued (queue : List (Option α))
  | done

/-- A whole configuration: stream, subscriber, and the items the subscriber
has yielded so far. -/
structure Cfg (α : Type) where
  stream : StreamState α
  sub : SubState α
  observed : List α

/-- Event labels: a producer `append`, the producer `close`, or an internal
subscriber step. -/
inductive Lab (α : Type) where
  | app (x : α)
  | cls
  | tau

/-- What `append` does to the subscriber: only a subscribed queue receives
the item. -/
def pushItem {α : Type} (s : SubState α) (x : α) : SubState α :=
  match s with
  | .queued q => .queued (q ++ [some x])
  | s => s

/-- What `close` does to the subscriber: a subscribed queue receives the
`None` sentinel. -/
def pushClose {α : Type} (s : SubState α) : SubState α :=
  match s with
  | .queued q => .queued (q ++ [none])
  | s => s

/-- One interleaved step of the system. -/
inductive Step {α : Type} : Cfg α → Lab α → Cfg α → Prop where
  | append (s : StreamState α) (sub : SubState α) (obs : List α) (x : α) :
      s.closed = false →
      Step ⟨s, sub, obs⟩ (.app x) ⟨⟨s.items ++ [x], false⟩, pushItem sub x, obs⟩
  | close (s : StreamState α) (sub : SubState α) (obs : List α) :
      s.closed = false →
      Step ⟨s, sub, obs⟩ .cls ⟨⟨s.items, true⟩, pushClose sub, obs⟩
  | drainYield (s : StreamState α) (i : ℕ) (obs : List α) (h : i < s.items.length) :
      Step ⟨s, .draining i, obs⟩ .tau
        ⟨s, .draining (i + 1), obs ++ [s.items.get ⟨i, h⟩]⟩
  | drainEndClosed (s : StreamState α) (i : ℕ) (obs : List α) :
      s.items.length ≤ i → s.closed = true →
      Step ⟨s, .draining i, obs⟩ .tau ⟨s, .done, obs⟩
  | subscribe (s : StreamState α) (i : ℕ) (obs : List α) :
      s.items.length ≤ i → s.closed = false →
      Step ⟨s, .draining i, obs⟩ .tau ⟨s, .queued [], obs⟩
  | pop (s : StreamState α) (x : α) (q : List (Option α)) (obs : List α) :
      Step ⟨s, .queued (some x :: q), obs⟩ .tau ⟨s, .queued q, obs ++ [x]⟩
  | popNone (s : StreamState α) (q : List (Option α)) (obs : List α) :
      Step ⟨s, .queued (none :: q), obs⟩ .tau ⟨s, .done, obs⟩

/-- A finite run, as the list of its labels. -/
inductive Runs {α : Type} : Cfg α → List (Lab α) → Cfg α → Prop where
  | nil (c : Cfg α) : Runs c [] c
  | cons {c c' c'' : Cfg α} {l : Lab α} {ls : List (Lab α)} :
      Step c l c' → Runs c' ls c'' → Runs c (l :: ls) c''

/-- The items appended during a run. -/
def appendsOf {α : Type} (tr : List (Lab α)) : List α :=
  tr.filterMap (fun l => match l with | .app x => some x | _ => none)

/-- The configuration in which a subscriber starts iterating: the stream
holds history `h0` and may or may not already be closed; nothing observed. -/
def init {α : Type} (h0 : List α) (closed : Bool) : Cfg α :=
  ⟨⟨h0, closed⟩, .draining 0, []⟩

end Replay

/-! ## Helper lemmas -/

/-- `ratMin` is bounded by its left argument. -/
theorem ratMin_le_left (a b : ℚ) : ratMin a b ≤ a := by
  unfold ratMin
  split_ifs with h
  · exact le_refl a
  · linarith

/-- `ratMin` is bounded by its right argument. -/
theorem ratMin_le_right (a b : ℚ) : ratMin a b ≤ b := by
  unfold ratMin
  split_ifs with h
  · exact h
  · exact le_refl b

/-- `List.foldl ratMin` is bounded by its initial value. -/
theorem foldl_min_le_init (xs : List ℚ) (a : ℚ) : xs.foldl ratMin a ≤ a := by
  induction xs generalizing a with
  | nil => simp
  | cons y ys ih => exact le_trans (ih (ratMin a y)) (ratMin_le_left a y)

/-- `List.foldl ratMin` is bounded by every list element. -/
theorem foldl_min_le_mem (xs : List ℚ) : ∀ (a x : ℚ), x ∈ xs → xs.foldl ratMin a ≤ x := by
  induction xs with
  | nil => intro a x hx; cases hx
  | cons y ys ih =>
    intro a x hx
    rcases List.mem_cons.1 hx with rfl | hx'
    · exact le_trans (foldl_min_le_init ys (ratMin a x)) (ratMin_le_right a x)
    · exact ih (ratMin a y) x hx'

/-- Python's `min` over a list bounds every element. -/
theorem listMin_le (l : List ℚ) (x : ℚ) (hx : x ∈ l) : listMin l ≤ x := by
  cases l with
  | nil => cases hx
  | cons y ys =>
    rcases List.mem_cons.1 hx with rfl | hx'
    · exact foldl_min_le_init ys x
    · exact foldl_min_le_mem ys y x hx'

/-- On a skipped vote (self-vote flag or an already-seen game), `register`
only updates the seen set. -/
theorem register_skip (k initial : ℚ) (pw : ℚ → ℚ) (st : EloState)
    (pref : Preference) (owns_game : Bool)
    (h : (owns_game
        || (decide (pref.games.1 ∈ (dictGet st.seen_games pref.author).getD [])
            || decide (pref.games.2 ∈ (dictGet st.seen_games pref.author).getD [])))
        = true) :
    register k initial pw st pref owns_game =
      (⟨st.ratings, st.runs,
        dictSet st.seen_games pref.author
          (addAll ((dictGet st.seen_games pref.author).getD [])
            [pref.games.1, pref.games.2])⟩, false) := by
  unfold register
  simp only [h]
  rfl

/-- Every entry surviving the final normalization step of `register` is
nonnegative, provided every entry of the pre-normalization list is at least
the list minimum (which `listMin_le` gives for free). -/
theorem normalize_nonneg (r3 : List (String × ℚ)) :
    ∀ p ∈ (if listMin (r3.map Prod.snd) < 0
           then r3.map (fun gr => (gr.1, gr.2 - listMin (r3.map Prod.snd)))
           else r3), 0 ≤ p.2 := by
  intro p hp
  by_cases hm : listMin (r3.map Prod.snd) < 0
  · rw [if_pos hm] at hp
    obtain ⟨q, hq, rfl⟩ := List.mem_map.1 hp
    have hle := listMin_le (r3.map Prod.snd) q.2 (List.mem_map_of_mem Prod.snd hq)
    simp only
    linarith
  · rw [if_neg hm] at hp
    have hle := listMin_le (r3.map Prod.snd) p.2 (List.mem_map_of_mem Prod.snd hp)
    push_neg at hm
    linarith

/-- C6 (voter idempotence): a vote whose author already has either game in
their seen set leaves ratings and runs untouched. -/
theorem C6_voter_idempotence (k initial : ℚ) (pw : ℚ → ℚ) (st : EloState)
    (pref : Preference) (owns_game : Bool)
    (h : pref.games.1 ∈ (dictGet st.seen_games pref.author).getD [] ∨
         pref.games.2 ∈ (dictGet st.seen_games pref.author).getD []) :
    (register k initial pw st pref owns_game).1.ratings = st.ratings ∧
    (register k initial pw st pref owns_game).1.runs = st.runs := by
  have hb : (owns_game
      || (decide (pref.games.1 ∈ (dictGet st.seen_games pref.author).getD [])
          || decide (pref.games.2 ∈ (dictGet st.seen_games pref.author).getD [])))
      = true := by
    rcases h with h | h <;> simp [h]
  rw [register_skip k initial pw st pref owns_game hb]
  exact ⟨rfl, rfl⟩

/-- Witness for `C6_voter_idempotence` at a concrete repeat vote. -/
theorem C6_voter_idempotence_witness :
    (("A" : String) ∈ (dictGet ([("v", ["A"])] : List (String × List String)) "v").getD []
      ∨ ("B" : String) ∈ (dictGet ([("v", ["A"])] : List (String × List String)) "v").getD []) ∧
    ((register 32 1000 pow10ref ⟨[("A", 1000)], [("A", 1)], [("v", ["A"])]⟩
        ⟨("A", "B"), 1, "v", 5⟩ false).1.ratings = [("A", 1000)] ∧
      (register 32 1000 pow10ref ⟨[("A", 1000)], [("A", 1)], [("v", ["A"])]⟩
        ⟨("A", "B"), 1, "v", 5⟩ false).1.runs = [("A", 1)]) :=
  ⟨Or.inl (by decide),
   C6_voter_idempotence 32 1000 pow10ref ⟨[("A", 1000)], [("A", 1)], [("v", ["A"])]⟩
     ⟨("A", "B"), 1, "v", 5⟩ false (Or.inl (by decide))⟩

/-- C7 (non-negativity): `register` preserves "all ratings are ≥ 0"; on a
counted vote the final shift-by-`-min` step guarantees it outright, and on a
skipped vote the ratings are unchanged. -/
theorem C7_register_nonneg (k initial : ℚ) (pw : ℚ → ℚ) (st : EloState)
    (pref : Preference) (owns_game : Bool)
    (hpre : ∀ p ∈ st.ratings, 0 ≤ p.2) :
    ∀ p ∈ (register k initial pw st pref owns_game).1.ratings, 0 ≤ p.2 := by
  by_cases hc : (owns_game
      || (decide (pref.games.1 ∈ (dictGet st.seen_games pref.author).getD [])
          || decide (pref.games.2 ∈ (dictGet st.seen_games pref.author).getD [])))
      = true
  · rw [register_skip k initial pw st pref owns_game hc]
    exact hpre
  · rw [Bool.not_eq_true] at hc
    unfold register
    simp only [hc, Bool.false_eq_true, if_false]
    exact normalize_nonneg _

/-- Witness for `C7_register_nonneg` at a concrete counted vote. -/
theorem C7_register_nonneg_witness :
    (∀ p ∈ ([("C", 10)] : List (String × ℚ)), 0 ≤ p.2) ∧
    (∀ p ∈ (register 32 1000 pow10ref ⟨[("C", 10)], [("C", 1)], []⟩
        ⟨("A", "B"), 1, "v", 5⟩ false).1.ratings, 0 ≤ p.2) :=
  ⟨by decide,
   C7_register_nonneg 32 1000 pow10ref ⟨[("C", 10)], [("C", 1)], []⟩
     ⟨("A", "B"), 1, "v", 5⟩ false (by decide)⟩

/-- `dictSet` grows a dict by at most one entry. -/
theorem dictSet_length_le {κ β : Type} [DecidableEq κ] (l : List (κ × β))
    (key : κ) (v : β) : (dictSet l key v).length ≤ l.length + 1 := by
  induction l with
  | nil => simp [dictSet]
  | cons p rest ih =>
    obtain ⟨k, w⟩ := p
    simp only [dictSet]
    split
    · simp
    · simp only [List.length_cons]
      omega

/-- Every entry of `dictSet l key v` is an old entry or the new one. -/
theorem mem_dictSet {κ β : Type} [DecidableEq κ] (l : List (κ × β))
    (key : κ) (v : β) (f : κ × β) (hf : f ∈ dictSet l key v) :
    f ∈ l ∨ f = (key, v) := by
  induction l with
  | nil => simpa [dictSet] using hf
  | cons p rest ih =>
    obtain ⟨k, w⟩ := p
    simp only [dictSet] at hf
    split at hf
    · rcases List.mem_cons.1 hf with rfl | hf'
      · next heq => exact Or.inr (by rw [heq])
      · exact Or.inl (List.mem_cons_of_mem _ hf')
    · rcases List.mem_cons.1 hf with rfl | hf'
      · exact Or.inl (List.mem_cons_self _ _)
      · rcases ih hf' with h | h
        · exact Or.inl (List.mem_cons_of_mem _ h)
        · exact Or.inr h

/-- C8 amended (file quota): an accepted `add_file` leaves at most **65**
files (the guard rejects only when the pre-add count already exceeds 64, so
64 existing files plus a new name are accepted), each of at most 128 KiB
provided the existing files already were. -/
theorem C8_file_quota_amended (files : TeamFiles) (content : List ℕ)
    (filename : String) (files' : TeamFiles)
    (hacc : addGameFile files content filename = .ok files')
    (hpre : ∀ f ∈ files, f.2.length ≤ 128 * 1024) :
    files'.length ≤ 65 ∧ ∀ f ∈ files', f.2.length ≤ 128 * 1024 := by
  unfold addGameFile at hacc
  split at hacc
  · cases hacc
  · split at hacc
    · cases hacc
    · split at hacc
      · cases hacc
      · next hlen hcount =>
        cases hacc
        constructor
        · have := dictSet_length_le files filename content
          omega
        · intro f hf
          rcases mem_dictSet files filename content f hf with h | h
          · exact hpre f h
          · subst h
            change content.length ≤ 128 * 1024
            omega

/-- Witness for `C8_file_quota_amended` at a concrete accepted upload. -/
theorem C8_file_quota_amended_witness :
    (addGameFile [("aa", [1])] [2, 3] "ab" = .ok [("aa", [1]), ("ab", [2, 3])] ∧
     ∀ f ∈ ([("aa", [1])] : TeamFiles), f.2.length ≤ 128 * 1024) ∧
    (([("aa", [1]), ("ab", [2, 3])] : TeamFiles).length ≤ 65 ∧
     ∀ f ∈ ([("aa", [1]), ("ab", [2, 3])] : TeamFiles), f.2.length ≤ 128 * 1024) :=
  ⟨⟨by decide, by decide⟩,
   C8_file_quota_amended [("aa", [1])] [2, 3] "ab" [("aa", [1]), ("ab", [2, 3])]
     (by decide) (by decide)⟩

/-- 65 distinct two-character file names, `a0` … `g4`. -/
def c8Names : List String :=
  (List.range 65).map (fun i => String.mk [Char.ofNat (97 + i / 10), Char.ofNat (48 + i % 10)])

/-- Uploading the 65 files in order through `add_game_file`, starting from an
empty team folder. -/
def c8Final : Except String TeamFiles :=
  c8Names.foldlM (fun fs n => addGameFile fs [7] n) []

/-- C8 counterexample: 65 consecutive `add_file` calls are all accepted
(none returns an error), leaving the team with 65 stored files — the 65th
accepted call violates the claimed `≤ 64` bound, because the guard
`len(files) > 64` looks at the count before the write. -/
theorem C8_file_quota_counterexample : c8Final.map List.length = .ok 65 := by decide

/-- C9 (session ownership hiding): at the API layer, looking up a session id
that does not exist and looking up one owned by someone else both produce the
identical 404 `Session not found.` error, so the caller cannot tell the two
apart. -/
theorem C9_ownership_hiding (sessions : List (ℕ × SessionR)) (userId : String)
    (missingId existingId : ℕ) (s : SessionR)
    (hmiss : dictGet sessions missingId = none)
    (hhit : dictGet sessions existingId = some s)
    (howner : s.owner ≠ userId) :
    apiGetSession sessions userId missingId = .error ⟨404, "Session not found."⟩ ∧
    apiGetSession sessions userId existingId = .error ⟨404, "Session not found."⟩ ∧
    apiGetSession sessions userId missingId = apiGetSession sessions userId existingId := by
  refine ⟨?_, ?_, ?_⟩ <;>
    simp [apiGetSession, getSession, hmiss, hhit, howner]

/-- Witness for `C9_ownership_hiding`: one registry holding only Alice's
session, queried by Bob with a missing id and with Alice's id. -/
theorem C9_ownership_hiding_witness :
    (dictGet ([(1, ⟨"alice", ["A", "B"], 0⟩)] : List (ℕ × SessionR)) 2 = none ∧
     dictGet ([(1, ⟨"alice", ["A", "B"], 0⟩)] : List (ℕ × SessionR)) 1
       = some ⟨"alice", ["A", "B"], 0⟩ ∧
     ("alice" : String) ≠ "bob") ∧
    (apiGetSession [(1, ⟨"alice", ["A", "B"], 0⟩)] "bob" 2
        = .error ⟨404, "Session not found."⟩ ∧
     apiGetSession [(1, ⟨"alice", ["A", "B"], 0⟩)] "bob" 1
        = .error ⟨404, "Session not found."⟩ ∧
     apiGetSession [(1, ⟨"alice", ["A", "B"], 0⟩)] "bob" 2
        = apiGetSession [(1, ⟨"alice", ["A", "B"], 0⟩)] "bob" 1) :=
  ⟨⟨by decide, by decide, by decide⟩,
   C9_ownership_hiding [(1, ⟨"alice", ["A", "B"], 0⟩)] "bob" 2 1
     ⟨"alice", ["A", "B"], 0⟩ (by decide) (by decide) (by decide)⟩

/-! ### The S1 scenario (claim C1) and the rebuild scenarios (C2, C3) -/

/-- `P1 = ((A, B), first_score = 1.0)` by voter `V`. -/
def prefP1 : Preference := ⟨("A", "B"), 1, "V", 1⟩

/-- `P2 = ((B, C), first_score = 0.0)` by voter `V`. -/
def prefP2 : Preference := ⟨("B", "C"), 0, "V", 2⟩

/-- `P3 = ((A, C), first_score = 1.0)` by voter `V`. -/
def prefP3 : Preference := ⟨("A", "C"), 1, "V", 3⟩

/-- The Elo state after `P1` alone: both games move 16 points from 1000. -/
def s1State : EloState :=
  ⟨[("A", 1016), ("B", 984)], [("A", 1), ("B", 1)], [("V", ["A", "B"])]⟩

/-- The Elo state after the full S1 replay: `P2` and `P3` only extend `V`'s
seen set. -/
def s2State : EloState :=
  ⟨[("A", 1016), ("B", 984)], [("A", 1), ("B", 1)], [("V", ["A", "B", "C"])]⟩

/-- A first vote between two fresh games with `first_score = 1` moves their
ratings from `initial = 1000` to `1016` and `984`: both start equal, so the
expected score is `1 / (1 + 10^0) = 1/2` exactly, and the update is
`±32·(1 − 1/2)`. -/
theorem register_fresh_pair (pw : ℚ → ℚ) (h : pw 0 = 1) (g1 g2 author : String)
    (ts : ℚ) (hne : g1 ≠ g2) :
    register 32 1000 pw emptyElo ⟨(g1, g2), 1, author, ts⟩ false =
      (⟨[(g1, 1016), (g2, 984)], [(g1, 1), (g2, 1)], [(author, [g1, g2])]⟩, true) := by
  unfold register emptyElo
  norm_num [dictGet, dictSet, dictGetD, ensureKey, expectedScore, addAll, listMin, ratMin, h,
    hne, hne.symm]

/-- `P2` is skipped: `B` is already in `V`'s seen set, so only the seen set
grows. -/
theorem registerP2_eq (pw : ℚ → ℚ) :
    register 32 1000 pw s1State prefP2 false = (s2State, false) := rfl

/-- `P3` is skipped: `A` is already in `V`'s seen set, and `C` is already
recorded too. -/
theorem registerP3_eq (pw : ℚ → ℚ) :
    register 32 1000 pw s2State prefP3 false = (s2State, false) := rfl

/-- Replaying `[P1, P2, P3]` from an empty rating state, for any float power
function with `pw 0 = 1`. -/
theorem replayS1_eq (pw : ℚ → ℚ) (h : pw 0 = 1) :
    replayFromEmpty 32 1000 pw [prefP1, prefP2, prefP3] = s2State := by
  unfold replayFromEmpty
  have h1 : register 32 1000 pw emptyElo prefP1 false = (s1State, true) :=
    register_fresh_pair pw h "A" "B" "V" 1 (by decide)
  simp only [List.foldl, h1, registerP2_eq pw, registerP3_eq pw]

/-- Game `A` of the worked scenarios. -/
def gA : GameMeta := ⟨"A", "A", "a.py", "a@x", "A"⟩

/-- Game `B` of the worked scenarios. -/
def gB : GameMeta := ⟨"B", "B", "b.py", "b@x", "B"⟩

/-- Game `C` of the worked scenarios. -/
def gC : GameMeta := ⟨"C", "C", "c.py", "c@x", "C"⟩

/-- The S1 catalogue: games `A`, `B`, `C`, voter `V` on no team (so
`allowed_access` is false everywhere). -/
def launcherS1 : LauncherCat := ⟨[gA, gB, gC], fun _ _ => false⟩

/-- The S1 leaderboard lists the two rated games in descending order. -/
theorem topS1_eq : (topRatings s2State launcherS1 []).map Rating.name = ["A", "B"] := rfl

/-- C1 amended (simple Elo round): replaying P1, P2, P3 from empty yields
`A = 1016.0`, `B = 984.0`; `C` is never rated because `P2` and `P3` are
skipped by voter idempotence (`B`, then `A`, is already in `V`'s seen set
when they arrive).  The leaderboard order is `A, B`, with `C` absent. -/
theorem C1_simple_elo_round_amended (pw : ℚ → ℚ) (h : pw 0 = 1) :
    (replayFromEmpty 32 1000 pw [prefP1, prefP2, prefP3]).ratings = [("A", 1016), ("B", 984)] ∧
    dictGet (replayFromEmpty 32 1000 pw [prefP1, prefP2, prefP3]).ratings "C" = none ∧
    (topRatings (replayFromEmpty 32 1000 pw [prefP1, prefP2, prefP3]) launcherS1 []).map
        Rating.name = ["A", "B"] := by
  rw [replayS1_eq pw h]
  exact ⟨rfl, rfl, topS1_eq⟩

/-- Witness for `C1_simple_elo_round_amended` at the concrete power
function. -/
theorem C1_simple_elo_round_amended_witness :
    pow10ref 0 = 1 ∧
    ((replayFromEmpty 32 1000 pow10ref [prefP1, prefP2, prefP3]).ratings
        = [("A", 1016), ("B", 984)] ∧
      dictGet (replayFromEmpty 32 1000 pow10ref [prefP1, prefP2, prefP3]).ratings "C" = none ∧
      (topRatings (replayFromEmpty 32 1000 pow10ref [prefP1, prefP2, prefP3]) launcherS1 []).map
          Rating.name = ["A", "B"]) :=
  ⟨by decide, C1_simple_elo_round_amended pow10ref (by decide)⟩

/-- C1 counterexample: the claimed final ratings `A = 1048.0`, `B = 1000.0`,
`C = 952.0` and leaderboard `A, B, C` are wrong on the code.  The replay
gives `A = 1016`, `B = 984`, leaves `C` unrated, and the leaderboard lists
only `A, B`: the spec's scenario ignores that `P2` and `P3` are skipped
because voter `V` has already rated `B` (resp. `A`). -/
theorem C1_simple_elo_round_counterexample :
    dictGet (replayFromEmpty 32 1000 pow10ref [prefP1, prefP2, prefP3]).ratings "A" = some 1016 ∧
    dictGet (replayFromEmpty 32 1000 pow10ref [prefP1, prefP2, prefP3]).ratings "B" = some 984 ∧
    dictGet (replayFromEmpty 32 1000 pow10ref [prefP1, prefP2, prefP3]).ratings "C" = none ∧
    (topRatings (replayFromEmpty 32 1000 pow10ref [prefP1, prefP2, prefP3]) launcherS1 []).map
        Rating.name = ["A", "B"] ∧
    ¬(dictGet (replayFromEmpty 32 1000 pow10ref [prefP1, prefP2, prefP3]).ratings "A"
          = some 1048 ∧
      dictGet (replayFromEmpty 32 1000 pow10ref [prefP1, prefP2, prefP3]).ratings "B"
          = some 1000 ∧
      dictGet (replayFromEmpty 32 1000 pow10ref [prefP1, prefP2, prefP3]).ratings "C"
          = some 952 ∧
      (topRatings (replayFromEmpty 32 1000 pow10ref [prefP1, prefP2, prefP3]) launcherS1 []).map
          Rating.name = ["A", "B", "C"]) := by
  rw [replayS1_eq pow10ref (by decide)]
  decide

/-- A vote on the pair `(a, b)` by `alice@x`, who is a member of the team
owning game `a` — a self-vote. -/
def c2Pref : Preference := ⟨("a", "b"), 1, "alice@x", 1⟩

/-- C2 (self-vote immunity is broken in the store's set path): the API's
`set_preference` calls `preference_store.set(session_id, preference)` with no
ownership information, and `RedisPreferenceStore.set` takes no `owns_game`
parameter at all, so `register` runs with its `owns_game = False` default:
the self-vote by `alice@x` on her own game `a` **changes ratings and runs**
(`a` gains 16 points), contradicting the claim that such a vote must leave
them unchanged.  Only the seen-set half of the claim holds. -/
theorem C2_self_vote_code_bug :
    (redisSet 32 1000 pow10ref [] emptyElo 7 c2Pref).2 =
      ⟨[("a", 1016), ("b", 984)], [("a", 1), ("b", 1)], [("alice@x", ["a", "b"])]⟩ := by
  unfold redisSet
  have h1 : register 32 1000 pow10ref emptyElo c2Pref false =
      (⟨[("a", 1016), ("b", 984)], [("a", 1), ("b", 1)], [("alice@x", ["a", "b"])]⟩, true) :=
    register_fresh_pair pow10ref (by decide) "a" "b" "alice@x" 1 (by decide)
  simp only [dictGet, Option.isSome, h1]
  simp

/-- The edited preference (timestamp 2), stored under key 1 first. -/
def pPref : Preference := ⟨("A", "B"), 1, "V", 2⟩

/-- An older preference (timestamp 1), stored under key 2 second. -/
def qPref : Preference := ⟨("A", "C"), 1, "V", 1⟩

/-- Inserting `pPref` (key 1), then `qPref` (key 2), then re-setting key 1
through `RAMPreferenceStore.set` — the last call is an edit and rebuilds. -/
def c3Run : List (ℕ × Preference) × EloState :=
  ramSet 32 1000 pow10ref
    (ramSet 32 1000 pow10ref
      (ramSet 32 1000 pow10ref [] emptyElo 1 pPref false).1
      (ramSet 32 1000 pow10ref [] emptyElo 1 pPref false).2 2 qPref false).1
    (ramSet 32 1000 pow10ref
      (ramSet 32 1000 pow10ref [] emptyElo 1 pPref false).1
      (ramSet 32 1000 pow10ref [] emptyElo 1 pPref false).2 2 qPref false).2
    1 pPref false

/-- Replaying the same edited log in ascending timestamp order instead. -/
def c3TsReplay : EloState :=
  replayFromEmpty 32 1000 pow10ref
    (stableSortAscBy (fun p => p.timestamp) (c3Run.1.map Prod.snd))

/-- C3 counterexample: after the edit, `RAMPreferenceStore.set` rebuilds in
dict **insertion** order (`pPref` then `qPref`), rating `A` and `B`; a replay
of the same log in ascending **timestamp** order processes `qPref` first and
rates `A` and `C`.  The two disagree, so the claim that the rebuild
re-registers in ascending timestamp order (and that set-then-rebuild equals
the timestamp-order replay) fails for the RAM store. -/
theorem C3_rebuild_order_counterexample :
    c3Run.2.ratings = [("A", 1016), ("B", 984)] ∧
    c3TsReplay.ratings = [("A", 1016), ("C", 984)] ∧
    c3Run.2.ratings ≠ c3TsReplay.ratings := by
  have hP : register 32 1000 pow10ref emptyElo pPref false =
      (⟨[("A", 1016), ("B", 984)], [("A", 1), ("B", 1)], [("V", ["A", "B"])]⟩, true) :=
    register_fresh_pair pow10ref (by decide) "A" "B" "V" 2 (by decide)
  have hQ : register 32 1000 pow10ref emptyElo qPref false =
      (⟨[("A", 1016), ("C", 984)], [("A", 1), ("C", 1)], [("V", ["A", "C"])]⟩, true) :=
    register_fresh_pair pow10ref (by decide) "A" "C" "V" 1 (by decide)
  have hskipQ : register 32 1000 pow10ref
      ⟨[("A", 1016), ("B", 984)], [("A", 1), ("B", 1)], [("V", ["A", "B"])]⟩ qPref false =
      (⟨[("A", 1016), ("B", 984)], [("A", 1), ("B", 1)], [("V", ["A", "B", "C"])]⟩, false) := rfl
  have hskipP : register 32 1000 pow10ref
      ⟨[("A", 1016), ("C", 984)], [("A", 1), ("C", 1)], [("V", ["A", "C"])]⟩ pPref false =
      (⟨[("A", 1016), ("C", 984)], [("A", 1), ("C", 1)], [("V", ["A", "C", "B"])]⟩, false) := rfl
  refine ⟨?_, ?_, ?_⟩
  · simp [c3Run, ramSet, replayFromEmpty, dictGet, dictSet, hP, hQ, hskipQ, hskipP]
  · simp only [c3TsReplay, c3Run, ramSet, replayFromEmpty, stableSortAscBy, insertAscBy,
      dictGet, dictSet, Option.isSome, List.foldl, List.map, hP, hQ, hskipQ, hskipP]
  · simp only [c3TsReplay, c3Run, ramSet, replayFromEmpty, stableSortAscBy, insertAscBy,
      dictGet, dictSet, Option.isSome, List.foldl, List.map, hP, hQ, hskipQ, hskipP]
    decide

/-- C3 amended (edit triggers full rebuild): on an existing key, `set` clears
and re-registers the whole stored log on the bound rating system — the Redis
store in ascending timestamp order, but the RAM store in dict insertion
order; in each case the resulting state equals replaying the edited log from
empty in that same order. -/
theorem C3_edit_rebuild_amended (k initial : ℚ) (pw : ℚ → ℚ)
    (store : List (ℕ × Preference)) (es : EloState) (key : ℕ) (value : Preference)
    (hexists : (dictGet store key).isSome = true) :
    (redisSet k initial pw store es key value).2 =
      replayFromEmpty k initial pw
        (stableSortAscBy (fun p => p.timestamp) ((dictSet store key value).map Prod.snd)) ∧
    (ramSet k initial pw store es key value false).2 =
      replayFromEmpty k initial pw ((dictSet store key value).map Prod.snd) := by
  constructor <;> simp [redisSet, ramSet, hexists]

/-- Witness for `C3_edit_rebuild_amended` at a one-entry store being
edited. -/
theorem C3_edit_rebuild_amended_witness :
    (dictGet [(1, pPref)] 1).isSome = true ∧
    ((redisSet 32 1000 pow10ref [(1, pPref)] emptyElo 1 qPref).2 =
        replayFromEmpty 32 1000 pow10ref
          (stableSortAscBy (fun p => p.timestamp)
            ((dictSet [(1, pPref)] 1 qPref).map Prod.snd)) ∧
      (ramSet 32 1000 pow10ref [(1, pPref)] emptyElo 1 qPref false).2 =
        replayFromEmpty 32 1000 pow10ref ((dictSet [(1, pPref)] 1 qPref).map Prod.snd)) :=
  ⟨by decide,
   C3_edit_rebuild_amended 32 1000 pow10ref [(1, pPref)] emptyElo 1 qPref (by decide)⟩

/-! ### The matchmaking avoid contract (claim C5) -/

/-- `removeFirst` only drops elements. -/
theorem mem_removeFirst {α : Type} [DecidableEq α] (l : List α) (a x : α)
    (hx : x ∈ removeFirst l a) : x ∈ l := by
  induction l with
  | nil =>
    simp only [removeFirst] at hx
    exact hx
  | cons y ys ih =>
    simp only [removeFirst] at hx
    split at hx
    · exact List.mem_cons_of_mem _ hx
    · rcases List.mem_cons.1 hx with rfl | hx'
      · exact List.mem_cons_self _ _
      · exact List.mem_cons_of_mem _ (ih hx')

/-- The removal loop only drops elements. -/
theorem mem_pyRemoveLoopAux {α : Type} [DecidableEq α] (p : α → Bool) (fuel : ℕ) :
    ∀ (l : List α) (n : ℕ) (x : α), x ∈ pyRemoveLoopAux p fuel l n → x ∈ l := by
  induction fuel with
  | zero =>
    intro l n x hx
    simp only [pyRemoveLoopAux] at hx
    exact hx
  | succ fuel ih =>
    intro l n x hx
    simp only [pyRemoveLoopAux] at hx
    split at hx
    · split at hx
      · exact mem_removeFirst _ _ _ (ih _ _ _ hx)
      · exact ih _ _ _ hx
    · exact hx

/-- The whole removal loop only drops elements. -/
theorem mem_pyRemoveLoop {α : Type} [DecidableEq α] (p : α → Bool) (l : List α)
    (n : ℕ) (x : α) (hx : x ∈ pyRemoveLoop p l n) : x ∈ l :=
  mem_pyRemoveLoopAux p l.length l n x hx

/-- Stable descending insertion contributes the new element or an old one. -/
theorem mem_insertDescBy {α : Type} (key : α → ℚ) (a x : α) (l : List α)
    (hx : x ∈ insertDescBy key a l) : x = a ∨ x ∈ l := by
  induction l with
  | nil =>
    simp only [insertDescBy, List.mem_singleton] at hx
    exact Or.inl hx
  | cons y ys ih =>
    simp only [insertDescBy] at hx
    split at hx
    · rcases List.mem_cons.1 hx with rfl | hx'
      · exact Or.inr (List.mem_cons_self _ _)
      · rcases ih hx' with h | h
        · exact Or.inl h
        · exact Or.inr (List.mem_cons_of_mem _ h)
    · rcases List.mem_cons.1 hx with rfl | hx'
      · exact Or.inl rfl
      · exact Or.inr hx'

/-- Elements of the insertion-sort fold come from the accumulator or the
input. -/
theorem mem_stableSortFold {α : Type} (key : α → ℚ) (l : List α) :
    ∀ (acc : List α) (x : α),
      x ∈ l.foldl (fun acc y => insertDescBy key y acc) acc → x ∈ acc ∨ x ∈ l := by
  induction l with
  | nil => intro acc x hx; exact Or.inl hx
  | cons y ys ih =>
    intro acc x hx
    rcases ih (insertDescBy key y acc) x hx with h | h
    · rcases mem_insertDescBy key y x acc h with rfl | h'
      · exact Or.inr (List.mem_cons_self _ _)
      · exact Or.inl h'
    · exact Or.inr (List.mem_cons_of_mem _ h)

/-- The stable descending sort is a permutation-level subset of its input. -/
theorem mem_stableSortDescBy {α : Type} (key : α → ℚ) (l : List α) (x : α)
    (hx : x ∈ stableSortDescBy key l) : x ∈ l := by
  rcases mem_stableSortFold key l [] x hx with h | h
  · cases h
  · exact h

/-- Stable descending insertion adds exactly one element. -/
theorem length_insertDescBy {α : Type} (key : α → ℚ) (a : α) (l : List α) :
    (insertDescBy key a l).length = l.length + 1 := by
  induction l with
  | nil => simp [insertDescBy]
  | cons y ys ih =>
    simp only [insertDescBy]
    split
    · simp [ih]
    · simp

/-- The insertion-sort fold preserves total length. -/
theorem length_stableSortFold {α : Type} (key : α → ℚ) (l : List α) :
    ∀ (acc : List α),
      (l.foldl (fun acc y => insertDescBy key y acc) acc).length
        = acc.length + l.length := by
  induction l with
  | nil => intro acc; simp
  | cons y ys ih =>
    intro acc
    rw [List.foldl_cons, ih (insertDescBy key y acc), length_insertDescBy]
    simp only [List.length_cons]
    omega

/-- The stable descending sort preserves length. -/
theorem length_stableSortDescBy {α : Type} (key : α → ℚ) (l : List α) :
    (stableSortDescBy key l).length = l.length := by
  rw [stableSortDescBy, length_stableSortFold key l []]
  simp

/-- Flattening a list of pairs doubles the length. -/
theorem length_flatMap_pairs {α : Type} (l : List (α × α)) :
    (l.flatMap (fun pr => [pr.1, pr.2])).length = 2 * l.length := by
  induction l with
  | nil => simp
  | cons p rest ih =>
    simp only [List.flatMap_cons, List.length_append, List.length_cons, ih]
    simp
    omega

/-- Both components of every launch pair respect the avoid set: the pairs are
formed from `available`, which filters `avoid` before the removal loop. -/
theorem launchPairs_avoid (es : EloState) (launcher : LauncherCat) (owner : String)
    (avoid excluded : List String) (reportAuthors : String → List String)
    (pr : GameMeta × GameMeta)
    (hpr : pr ∈ launchPairs es launcher owner avoid excluded reportAuthors) :
    pr.1.team_id ∉ avoid ∧ pr.2.team_id ∉ avoid := by
  have hav : ∀ g ∈ launchAvailable es launcher owner avoid excluded reportAuthors,
      g.team_id ∉ avoid := by
    intro g hg
    have hg' := mem_pyRemoveLoop _ _ _ _ hg
    have hf := (List.mem_filter.1 hg').2
    simp only [Bool.and_eq_true, Bool.not_eq_true'] at hf
    have hc := hf.1.1.2
    simp at hc
    exact hc
  obtain ⟨g, hg, ho⟩ := List.mem_flatMap.1 hpr
  obtain ⟨o, ho', heq⟩ := List.mem_map.1 ho
  have ho'' := List.mem_of_mem_filter ho'
  subst heq
  exact ⟨hav g hg, hav o ho''⟩

/-- C5 amended (strategy avoid contract, bounded): every game returned by
`EloRatingSystem.launch` avoids the `avoid` set **as long as the requested
capacity does not exceed twice the number of available ordered pairs** — up
to that point the result is drawn from the sorted pair flattening, whose
members all pass the avoid filter.  Beyond it, the unfiltered catalogue
padding `+ launcher.games` can leak avoided teams (see the counterexample).
The `replace_game` call uses capacity 1, which always satisfies the bound. -/
theorem C5_strategy_avoid_amended (initial : ℚ) (es : EloState)
    (launcher : LauncherCat) (capacity : ℕ) (owner : String)
    (avoid excluded : List String) (reportAuthors : String → List String)
    (hcap : capacity ≤
      2 * (launchPairs es launcher owner avoid excluded reportAuthors).length) :
    ∀ g ∈ launch initial es launcher capacity owner avoid excluded reportAuthors,
      g.team_id ∉ avoid := by
  intro g hg
  simp only [launch] at hg
  split at hg
  · cases hg
  · set pairs := launchPairs es launcher owner avoid excluded reportAuthors with hpairs
    set sortedPairs := stableSortDescBy
      (fun pr => pairLikelihood initial es pr.1.team_id pr.2.team_id) pairs with hsorted
    have hlen : capacity ≤ (sortedPairs.flatMap (fun pr => [pr.1, pr.2])).length := by
      rw [length_flatMap_pairs, hsorted, length_stableSortDescBy]
      exact hcap
    rw [List.take_append_of_le_length hlen] at hg
    have hg' := List.take_subset _ _ hg
    obtain ⟨pr, hpr, hmem⟩ := List.mem_flatMap.1 hg'
    have hpr' := mem_stableSortDescBy _ _ _ hpr
    have havoid := launchPairs_avoid es launcher owner avoid excluded reportAuthors pr hpr'
    rcases List.mem_cons.1 hmem with rfl | hmem'
    · exact havoid.1
    · rcases List.mem_cons.1 hmem' with rfl | h
      · exact havoid.2
      · cases h

/-- Witness for `C5_strategy_avoid_amended`: the `replace_game`
configuration — capacity 1, avoid the session's current team `C`. -/
theorem C5_strategy_avoid_amended_witness :
    (1 ≤ 2 * (launchPairs emptyElo launcherS1 "V" ["C"] [] (fun _ => [])).length) ∧
    (∀ g ∈ launch 1000 emptyElo launcherS1 1 "V" ["C"] [] (fun _ => []),
      g.team_id ∉ ["C"]) :=
  ⟨by decide,
   C5_strategy_avoid_amended 1000 emptyElo launcherS1 1 "V" ["C"] [] (fun _ => [])
     (by decide)⟩

/-- C5 counterexample: with catalogue `A, B, C`, avoid set `{C}` and capacity
7, `launch` pads its result with the raw catalogue and returns game `C` in
position 7 even though `C ∈ avoid` — the universal avoid contract is false as
stated. -/
theorem C5_strategy_avoid_counterexample :
    launch 1000 emptyElo launcherS1 7 "V" ["C"] [] (fun _ => []) =
      [gA, gB, gB, gA, gA, gB, gC] ∧ gC.team_id ∈ ["C"] := by
  constructor
  · have h2 : launchPairs emptyElo launcherS1 "V" ["C"] [] (fun _ => []) =
        [(gA, gB), (gB, gA)] := rfl
    have h3 : stableSortDescBy
        (fun pr => pairLikelihood 1000 emptyElo pr.1.team_id pr.2.team_id)
        [(gA, gB), (gB, gA)] = [(gA, gB), (gB, gA)] := by
      norm_num [stableSortDescBy, insertDescBy, pairLikelihood, dictGetD, dictGet,
        ratAbs, emptyElo]
    simp only [launch, h2, h3]
    rw [if_neg (by simp)]
    rfl
  · decide

/-- C10 (silent rejection of a bad entrypoint): when the metadata's
entrypoint filename fails the strict rule, `build_game` returns without
error and changes nothing: catalogue, persisted metadata and built images
are all exactly as before. -/
theorem C10_buildGame_silent (st : LauncherState) (metadata : GameMeta)
    (h : checkFileName true metadata.file = false) :
    buildGame st metadata = st := by
  simp [buildGame, h]

/-- Witness for `C10_buildGame_silent`: an entrypoint with a space fails the
strict rule and the launcher state is untouched. -/
theorem C10_buildGame_silent_witness :
    checkFileName true "my game.py" = false ∧
    buildGame ⟨[⟨"G", "t1", "main.py", "a@x", "t1"⟩], [], []⟩
        ⟨"G", "t1", "my game.py", "a@x", "t1"⟩
      = ⟨[⟨"G", "t1", "main.py", "a@x", "t1"⟩], [], []⟩ :=
  ⟨by decide,
   C10_buildGame_silent ⟨[⟨"G", "t1", "main.py", "a@x", "t1"⟩], [], []⟩
     ⟨"G", "t1", "my game.py", "a@x", "t1"⟩ (by decide)⟩

namespace Replay

/-- The run invariant: with `h0` the history at iteration start and `A` the
items appended so far, the stream holds `h0 ++ A`, and the subscriber's state
determines exactly which prefix it has observed and what remains queued. -/
def Inv {α : Type} (h0 A : List α) (c : Cfg α) : Prop :=
  c.stream.items = h0 ++ A ∧
  match c.sub with
  | .draining i => c.observed = (h0 ++ A).take i ∧ i ≤ (h0 ++ A).length
  | .queued q => ∃ m, m ≤ A.length ∧ c.observed = h0 ++ A.take m ∧
      q = (A.drop m).map some ++ (if c.stream.closed then [Option.none] else [])
  | .done => c.observed = h0 ++ A ∧ c.stream.closed = true

/-- A producer append contributes exactly its item to the trace. -/
theorem appendsOf_app {α : Type} (x : α) : appendsOf [Lab.app x] = [x] := rfl

/-- Closing contributes nothing to the appended items. -/
theorem appendsOf_cls {α : Type} : appendsOf ([Lab.cls] : List (Lab α)) = [] := rfl

/-- A subscriber step contributes nothing to the appended items. -/
theorem appendsOf_tau {α : Type} : appendsOf ([Lab.tau] : List (Lab α)) = [] := rfl

/-- Every step of the system preserves the invariant, extending the appended
items by whatever the label carries. -/
theorem inv_step {α : Type} (h0 A : List α) (c c' : Cfg α) (l : Lab α)
    (hstep : Step c l c') (hinv : Inv h0 A c) :
    Inv h0 (A ++ appendsOf [l]) c' := by
  cases hstep with
  | append s sub obs x hclosed =>
    rw [appendsOf_app]
    obtain ⟨items, closed⟩ := s
    obtain ⟨hitems, hsub⟩ := hinv
    simp only at hitems hclosed
    subst hitems
    subst hclosed
    cases sub with
    | draining i =>
      obtain ⟨hobs, hle⟩ := hsub
      refine ⟨by simp, ?_, ?_⟩
      · simp only [pushItem]
        rw [← List.append_assoc, List.take_append_of_le_length hle]
        exact hobs
      · simp only [pushItem, List.length_append, List.length_cons, List.length_nil]
        simp only [List.length_append] at hle
        omega
    | queued q =>
      obtain ⟨m, hm, hobs, hq⟩ := hsub
      simp only [if_neg Bool.false_ne_true, List.append_nil] at hq
      refine ⟨by simp, m, ?_, ?_, ?_⟩
      · simp only [List.length_append, List.length_cons, List.length_nil]
        omega
      · simp only [pushItem]
        rw [List.take_append_of_le_length hm]
        exact hobs
      · simp only [pushItem, if_neg Bool.false_ne_true, List.append_nil,
          List.drop_append_of_le_length hm, List.map_append, hq]
        simp
    | done =>
      obtain ⟨hobs, hcl⟩ := hsub
      cases hcl
  | close s sub obs hclosed =>
    rw [appendsOf_cls, List.append_nil]
    obtain ⟨items, closed⟩ := s
    obtain ⟨hitems, hsub⟩ := hinv
    simp only at hitems hclosed
    subst hitems
    subst hclosed
    cases sub with
    | draining i =>
      exact ⟨rfl, hsub⟩
    | queued q =>
      obtain ⟨m, hm, hobs, hq⟩ := hsub
      simp only [if_neg Bool.false_ne_true, List.append_nil] at hq
      exact ⟨rfl, m, hm, hobs, by simp [pushClose, hq]⟩
    | done =>
      obtain ⟨hobs, hcl⟩ := hsub
      cases hcl
  | drainYield s i obs h =>
    rw [appendsOf_tau, List.append_nil]
    obtain ⟨items, closed⟩ := s
    obtain ⟨hitems, hobs, hle⟩ := hinv
    simp only at hitems hobs hle h ⊢
    subst hitems
    subst hobs
    refine ⟨rfl, ?_, ?_⟩
    · simp
    · simpa using Nat.succ_le_of_lt h
  | drainEndClosed s i obs hge hcl =>
    rw [appendsOf_tau, List.append_nil]
    obtain ⟨items, closed⟩ := s
    obtain ⟨hitems, hobs, hle⟩ := hinv
    simp only at hitems hobs hle hge hcl ⊢
    subst hitems
    subst hobs
    exact ⟨rfl, List.take_of_length_le hge, hcl⟩
  | subscribe s i obs hge hcl =>
    rw [appendsOf_tau, List.append_nil]
    obtain ⟨items, closed⟩ := s
    obtain ⟨hitems, hobs, hle⟩ := hinv
    simp only at hitems hobs hle hge hcl ⊢
    subst hitems
    subst hobs
    subst hcl
    refine ⟨rfl, A.length, le_refl _, ?_, ?_⟩
    · rw [List.take_of_length_le hge, List.take_length]
    · rw [List.drop_length]
      simp
  | pop s x q obs =>
    rw [appendsOf_tau, List.append_nil]
    obtain ⟨items, closed⟩ := s
    obtain ⟨hitems, m, hm, hobs, hq⟩ := hinv
    simp only at hitems hobs hq ⊢
    subst hitems
    subst hobs
    have hmlt : m < A.length := by
      by_contra hge
      push_neg at hge
      rw [List.drop_eq_nil_iff.2 hge] at hq
      simp only [List.map_nil, List.nil_append] at hq
      rcases closed with _ | _ <;> simp at hq
    have hdrop : A.drop m = A.get ⟨m, hmlt⟩ :: A.drop (m + 1) :=
      List.drop_eq_getElem_cons hmlt
    rw [hdrop] at hq
    simp only [List.map_cons, List.cons_append, List.cons.injEq] at hq
    obtain ⟨hx, hq'⟩ := hq
    cases hx
    refine ⟨rfl, m + 1, hmlt, ?_, hq'⟩
    show h0 ++ List.take m A ++ [A.get ⟨m, hmlt⟩] = h0 ++ List.take (m + 1) A
    rw [List.append_assoc]
    congr 1
    simp
  | popNone s q obs =>
    rw [appendsOf_tau, List.append_nil]
    obtain ⟨items, closed⟩ := s
    obtain ⟨hitems, m, hm, hobs, hq⟩ := hinv
    simp only at hitems hobs hq ⊢
    subst hitems
    subst hobs
    have hdropnil : A.drop m = [] := by
      by_contra hne
      obtain ⟨y, ys, hys⟩ := List.exists_cons_of_ne_nil hne
      rw [hys] at hq
      simp at hq
    rw [hdropnil] at hq
    simp only [List.map_nil, List.nil_append] at hq
    have hclosed : closed = true := by
      rcases closed with _ | _
      · simp at hq
      · rfl
    subst hclosed
    refine ⟨rfl, ?_, rfl⟩
    have hmeq : A.length ≤ m := List.drop_eq_nil_iff.1 hdropnil
    rw [List.take_of_length_le hmeq]

/-- A label list splits off its head for `appendsOf`. -/
theorem appendsOf_cons {α : Type} (l : Lab α) (ls : List (Lab α)) :
    appendsOf (l :: ls) = appendsOf [l] ++ appendsOf ls := by
  cases l <;> simp [appendsOf]

/-- The invariant is preserved along any run, accumulating the appended
items. -/
theorem inv_runs {α : Type} (h0 : List α) (tr : List (Lab α)) (c c' : Cfg α)
    (hrun : Runs c tr c') :
    ∀ A, Inv h0 A c → Inv h0 (A ++ appendsOf tr) c' := by
  induction hrun with
  | nil c =>
    intro A h
    simpa [appendsOf] using h
  | cons hstep hrest ih =>
    intro A h
    have h1 := inv_step _ _ _ _ _ hstep h
    have h2 := ih _ h1
    rw [appendsOf_cons, ← List.append_assoc]
    exact h2

/-- The starting configuration of a subscriber satisfies the invariant. -/
theorem inv_init {α : Type} (h0 : List α) (c0 : Bool) : Inv h0 [] (init h0 c0) :=
  ⟨by simp [init], by simp [init], by simp [init]⟩

/-- From a closed stream, a subscriber still in the history loop can always
drain the remaining history and terminate, having observed everything. -/
theorem drain_finish {α : Type} (h0 A : List α) :
    ∀ (n i : ℕ) (obs : List α), (h0 ++ A).length - i = n → obs = (h0 ++ A).take i →
      ∃ (tr' : List (Lab α)) (c' : Cfg α),
        Runs ⟨⟨h0 ++ A, true⟩, .draining i, obs⟩ tr' c' ∧ appendsOf tr' = [] ∧
        c'.sub = .done ∧ c'.observed = h0 ++ A := by
  intro n
  induction n with
  | zero =>
    intro i obs hn hobs
    have hge : (h0 ++ A).length ≤ i := by omega
    refine ⟨[.tau], ⟨⟨h0 ++ A, true⟩, .done, obs⟩,
      Runs.cons (Step.drainEndClosed _ _ _ hge rfl) (Runs.nil _), rfl, rfl, ?_⟩
    rw [hobs, List.take_of_length_le hge]
  | succ n ih =>
    intro i obs hn hobs
    by_cases hlt : i < (h0 ++ A).length
    · obtain ⟨tr', c', hrun, happ, hdone, hobs'⟩ :=
        ih (i + 1) (obs ++ [(h0 ++ A).get ⟨i, hlt⟩]) (by omega) (by rw [hobs]; simp)
      exact ⟨.tau :: tr', c', Runs.cons (Step.drainYield _ _ _ hlt) hrun,
        by rw [appendsOf_cons, happ, appendsOf_tau]; rfl, hdone, hobs'⟩
    · have hge : (h0 ++ A).length ≤ i := by omega
      refine ⟨[.tau], ⟨⟨h0 ++ A, true⟩, .done, obs⟩,
        Runs.cons (Step.drainEndClosed _ _ _ hge rfl) (Runs.nil _), rfl, rfl, ?_⟩
      rw [hobs, List.take_of_length_le hge]

/-- From a closed stream, a subscribed consumer can always pop the queued
items and the final `None` sentinel and terminate, having observed
everything. -/
theorem queue_finish {α : Type} (h0 A : List α) :
    ∀ (k m : ℕ) (obs : List α), A.length - m = k → m ≤ A.length →
      obs = h0 ++ A.take m →
      ∃ (tr' : List (Lab α)) (c' : Cfg α),
        Runs ⟨⟨h0 ++ A, true⟩, .queued ((A.drop m).map some ++ [Option.none]), obs⟩
          tr' c' ∧
        appendsOf tr' = [] ∧ c'.sub = .done ∧ c'.observed = h0 ++ A := by
  intro k
  induction k with
  | zero =>
    intro m obs hk hm hobs
    have hme : m = A.length := by omega
    subst hme
    rw [List.drop_length]
    refine ⟨[.tau], ⟨⟨h0 ++ A, true⟩, .done, obs⟩,
      Runs.cons (Step.popNone _ _ _) (Runs.nil _), rfl, rfl, ?_⟩
    rw [hobs, List.take_length]
  | succ k ih =>
    intro m obs hk hm hobs
    have hmlt : m < A.length := by omega
    have hqeq : (A.drop m).map some ++ [Option.none] =
        some (A.get ⟨m, hmlt⟩) :: ((A.drop (m + 1)).map some ++ [Option.none]) := by
      rw [List.drop_eq_getElem_cons hmlt]
      rfl
    obtain ⟨tr', c', hrun, happ, hdone, hobs'⟩ :=
      ih (m + 1) (obs ++ [A.get ⟨m, hmlt⟩]) (by omega) hmlt
        (by rw [hobs, List.append_assoc]; congr 1; simp)
    refine ⟨.tau :: tr', c', ?_, by rw [appendsOf_cons, happ, appendsOf_tau]; rfl,
      hdone, hobs'⟩
    rw [hqeq]
    exact Runs.cons (Step.pop _ _ _ _) hrun

/-- Once the stream is closed, every reachable subscriber state can finish:
there is a consumer-only continuation reaching `done` with the full history
observed. -/
theorem closed_terminates {α : Type} (h0 A : List α) (c : Cfg α) (hinv : Inv h0 A c)
    (hcl : c.stream.closed = true) :
    ∃ (tr' : List (Lab α)) (c' : Cfg α), Runs c tr' c' ∧ appendsOf tr' = [] ∧
      c'.sub = .done ∧ c'.observed = h0 ++ A := by
  obtain ⟨⟨items, closed⟩, sub, obs⟩ := c
  obtain ⟨hitems, hsub⟩ := hinv
  simp only at hitems hcl
  subst hitems
  subst hcl
  cases sub with
  | draining i =>
    obtain ⟨hobs, hle⟩ := hsub
    exact drain_finish h0 A ((h0 ++ A).length - i) i obs rfl hobs
  | queued q =>
    obtain ⟨m, hm, hobs, hq⟩ := hsub
    rw [if_pos rfl] at hq
    subst hq
    exact queue_finish h0 A (A.length - m) m obs rfl hm hobs
  | done =>
    obtain ⟨hobs, _⟩ := hsub
    exact ⟨[], _, Runs.nil _, rfl, rfl, hobs⟩

/-- C4 (ReplayStream totality): along every interleaved run of one producer
and one subscriber that starts iterating when the stream holds history `h0`,
(1) if the subscriber's iterator has terminated, the sequence it observed is
exactly `h0` followed by every item appended during the run — no duplicates,
no gaps, nothing after close (appends after close are impossible in the step
relation, as `append` raises on a closed stream); and (2) once the stream is
closed, the subscriber can always drain what is left and terminate with
exactly that sequence observed. -/
theorem C4_replaystream_totality {α : Type} (h0 : List α) (c0 : Bool)
    (tr : List (Lab α)) (c : Cfg α) (hrun : Runs (init h0 c0) tr c) :
    (c.sub = .done → c.observed = h0 ++ appendsOf tr) ∧
    (c.stream.closed = true →
      ∃ (tr' : List (Lab α)) (c' : Cfg α), Runs c tr' c' ∧ appendsOf tr' = [] ∧
        c'.sub = .done ∧ c'.observed = h0 ++ appendsOf tr) := by
  have hinv := inv_runs h0 tr _ c hrun [] (inv_init h0 c0)
  simp only [List.nil_append] at hinv
  constructor
  · intro hdone
    obtain ⟨⟨items, closed⟩, sub, obs⟩ := c
    simp only at hdone
    subst hdone
    exact hinv.2.1
  · intro hcl
    exact closed_terminates h0 _ c hinv hcl

/-- A concrete six-step run: yield the history item 5, subscribe, producer
appends 7, producer closes, pop 7, pop the sentinel. -/
def c4Trace : List (Lab ℕ) := [.tau, .tau, .app 7, .cls, .tau, .tau]

/-- The final configuration of `c4Trace`: closed stream, iterator done,
observed `[5, 7]`. -/
def c4Final : Cfg ℕ := ⟨⟨[5, 7], true⟩, .done, [5, 7]⟩

/-- Witness for `C4_replaystream_totality` on the concrete run `c4Trace`. -/
theorem C4_replaystream_totality_witness :
    Runs (init [5] false) c4Trace c4Final ∧
    ((c4Final.sub = .done → c4Final.observed = [5] ++ appendsOf c4Trace) ∧
     (c4Final.stream.closed = true →
       ∃ (tr' : List (Lab ℕ)) (c' : Cfg ℕ), Runs c4Final tr' c' ∧ appendsOf tr' = [] ∧
         c'.sub = .done ∧ c'.observed = [5] ++ appendsOf c4Trace)) := by
  have hrun : Runs (init [5] false) c4Trace c4Final := by
    apply Runs.cons (Step.drainYield ⟨[5], false⟩ 0 [] (by simp))
    apply Runs.cons (Step.subscribe ⟨[5], false⟩ 1 _ (by simp) rfl)
    apply Runs.cons (Step.append ⟨[5], false⟩ _ _ 7 rfl)
    apply Runs.cons (Step.close ⟨[5, 7], false⟩ _ _ rfl)
    apply Runs.cons (Step.pop ⟨[5, 7], true⟩ 7 [Option.none] [5])
    apply Runs.cons (Step.popNone ⟨[5, 7], true⟩ [] ([5] ++ [7]))
    exact Runs.nil _
  exact ⟨hrun, C4_replaystream_totality [5] false c4Trace c4Final hrun⟩

end Replay

end Gamebattle
